import Mathlib

/-!
Shallow embedding of the `ratelimit` Go package (src/ratelimit.go).

The package provides a `Limiter`: a bounded FIFO queue (a Go buffered
channel `values`) coupled with a pacing gate (a mutex-protected
timestamp `nextTime` and a duration `d`).

Modelling conventions:
- Timestamps and durations are `Int` (Go `time.Time` / `time.Duration`
  idealised to integer instants; `time.Sleep` of a non-positive duration
  returns immediately).
- A Go `interface{}` value is `GoValue α := Option α`, where `none`
  models the Go `nil` interface value (which a caller may legitimately
  push, and which `PopOk` also returns on a closed, drained channel).
- The buffered channel is its buffer: a `List (GoValue α)` bounded by
  `capacity`, plus the `closed` flag.  Receive takes the head; send
  appends at the tail when `length < capacity`; send on a full open
  channel blocks; send on a closed channel panics (recovered in `Push`
  as `ErrClosed`); receive on a closed empty channel yields
  `(nil, false)`; receive on an empty open channel blocks.
- Blocking operations are modelled as not completing: in the trace
  semantics (`step`/`run`) a blocked call leaves the state unchanged and
  emits a `blocked` event, i.e. that call did not finish within the
  trace.
- Since `waitAndBumpNextTime` runs under the mutex `l.lock`, gate
  passages of concurrent consumers are serialized; the trace semantics
  presents each completed operation atomically in that serialization
  order.  The release instant of a pop is the instant the gate lets it
  through (`wake` below).
-/

namespace Ratelimit

/-- A Go `interface{}` value; `none` is the `nil` interface value. -/
abbrev GoValue (α : Type) := Option α

/-- `DefaultCapacity` from the source (`const DefaultCapacity = 1`). -/
def DefaultCapacity : Int := 1

/-- The single error value `ErrClosed` of the package. -/
inductive RErr where
  | ErrClosed
deriving DecidableEq, Repr

/-- The `Limiter` struct: pacing watermark `nextTime`, throughput
duration `d`, and the buffered channel `values` modelled as its
`capacity`, its current `buffer` contents (FIFO, head = next to pop),
and its `closed` flag.  The mutex `lock` has no state of its own here:
it only serializes gate passages, which the trace semantics makes
explicit. -/
structure Limiter (α : Type) where
  nextTime : Int
  d : Int
  capacity : Nat
  buffer : List (GoValue α)
  closed : Bool
deriving DecidableEq, Repr

/-- `NewCapacity(d, capacity)` from the source, with the construction
instant `now` passed explicitly (the source reads `time.Now()`).
Go `make(chan interface{}, capacity)` panics when `capacity` is
negative, so construction yields `none` there; otherwise the limiter
starts with `nextTime = now`, an empty buffer, and open channel. -/
def NewCapacity (α : Type) (now d capacity : Int) : Option (Limiter α) :=
  if capacity < 0 then none
  else some { nextTime := now, d := d, capacity := capacity.toNat,
              buffer := [], closed := false }

/-- `New(d)` from the source: capacity defaults to `DefaultCapacity`. -/
def New (α : Type) (now d : Int) : Option (Limiter α) :=
  NewCapacity α now d DefaultCapacity

/-- Result of `Push`: success with the new state, `ErrClosed` with the
(unchanged) state, or the call blocking because the buffer is full. -/
inductive PushResult (α : Type) where
  | ok (l : Limiter α)
  | errClosed (l : Limiter α)
  | blocked
deriving DecidableEq, Repr

/-- `Limiter.Push` from the source: `l.values <- value` appends to the
channel buffer when there is space, blocks when the open channel is
full, and panics on a closed channel — which the deferred `recover`
turns into `err = ErrClosed`, leaving the limiter unchanged. -/
def Push (l : Limiter α) (v : GoValue α) : PushResult α :=
  if l.closed then .errClosed l
  else if l.buffer.length < l.capacity then
    .ok { l with buffer := l.buffer ++ [v] }
  else .blocked

/-- `Limiter.waitAndBumpNextTime` from the source, as a function of the
watermark `nextTime`, the duration `d`, and the instant `now` at which
the caller holds the lock.  `time.Sleep(l.nextTime.Sub(time.Now()))`
suspends for `nextTime - now` when that is positive and returns
immediately otherwise, so the caller wakes at `wake`; then
`l.nextTime = time.Now().Add(l.d)` stores `wake + d`.  Returns
`(wake, new nextTime)`. -/
def waitAndBumpNextTime (nextTime d now : Int) : Int × Int :=
  let wake := now + max (nextTime - now) 0
  (wake, wake + d)

/-- `Limiter.PopOk` from the source at instant `now`.  `<-l.values`
takes the buffer head when one is present (also on a closed channel:
buffered values remain receivable after `close`), yields
`(nil, false)` immediately on a closed empty channel, and blocks
(result `none`) on an open empty channel.  On a received value the
caller runs the pacing gate and returns `(v, true)`.  The result
carries the Go return pair, the post state, and the instant at which
the call returns. -/
def PopOk (l : Limiter α) (now : Int) :
    Option ((GoValue α × Bool) × Limiter α × Int) :=
  match l.buffer with
  | [] => if l.closed then some ((none, false), l, now) else none
  | v :: rest =>
    let g := waitAndBumpNextTime l.nextTime l.d now
    some ((v, true), { l with buffer := rest, nextTime := g.2 }, g.1)

/-- `Limiter.Pop` from the source: `v, _ := l.PopOk(); return v` —
the validity flag is discarded. -/
def Pop (l : Limiter α) (now : Int) :
    Option (GoValue α × Limiter α × Int) :=
  match PopOk l now with
  | none => none
  | some ((v, _ok), l1, t) => some (v, l1, t)

/-- `Limiter.Close` from the source: `close(l.values)` marks the
channel closed; closing an already-closed channel panics, which the
deferred `recover` turns into `err = ErrClosed`, leaving the limiter
unchanged. -/
def Close (l : Limiter α) : Except RErr Unit × Limiter α :=
  if l.closed then (.error .ErrClosed, l)
  else (.ok (), { l with closed := true })

/-- An operation a client may invoke on the limiter; `pop` carries the
instant at which the call reaches the pacing gate. -/
inductive Op (α : Type) where
  | push (v : GoValue α)
  | pop (now : Int)
  | close
deriving DecidableEq, Repr

/-- The observable outcome of one completed (or blocked) operation. -/
inductive Event (α : Type) where
  | stored (v : GoValue α)
  | pushErrClosed
  | pushBlocked
  | popped (v : GoValue α) (t : Int)
  | popEnd
  | popBlocked
  | closeOk
  | closeErrClosed
deriving DecidableEq, Repr

/-- One atomic step of the limiter: run the source function of the operation
and record its outcome.  A blocked call leaves the state unchanged. -/
def step (l : Limiter α) : Op α → Limiter α × Event α
  | .push v =>
    match Push l v with
    | .ok l1 => (l1, .stored v)
    | .errClosed l1 => (l1, .pushErrClosed)
    | .blocked => (l, .pushBlocked)
  | .pop now =>
    match PopOk l now with
    | some ((v, true), l1, t) => (l1, .popped v t)
    | some ((_, false), l1, _) => (l1, .popEnd)
    | none => (l, .popBlocked)
  | .close =>
    match Close l with
    | (.ok _, l1) => (l1, .closeOk)
    | (.error _, l1) => (l1, .closeErrClosed)

/-- Run a serialized trace of operations, collecting the events. -/
def run (l : Limiter α) : List (Op α) → Limiter α × List (Event α)
  | [] => (l, [])
  | op :: ops =>
    let s := step l op
    let r := run s.1 ops
    (r.1, s.2 :: r.2)

/-- The values successfully stored by pushes in a trace, in order. -/
def storedValues : List (Event α) → List (GoValue α)
  | [] => []
  | .stored v :: es => v :: storedValues es
  | _ :: es => storedValues es

/-- The values returned by successful pops in a trace, in order. -/
def poppedValues : List (Event α) → List (GoValue α)
  | [] => []
  | .popped v _ :: es => v :: poppedValues es
  | _ :: es => poppedValues es

/-- The release instants of the successful pops in a trace, in order. -/
def popTimes : List (Event α) → List Int
  | [] => []
  | .popped _ t :: es => t :: popTimes es
  | _ :: es => popTimes es

/-- Repeatedly call `PopOk`, once per instant in `nows`, collecting the
Go return pairs `(value, ok)`; a blocked call ends the run. -/
def popRun (l : Limiter α) : List Int → List (GoValue α × Bool)
  | [] => []
  | now :: rest =>
    match PopOk l now with
    | some (res, l1, _) => res :: popRun l1 rest
    | none => []

/-! ### Characterisation of single steps -/

theorem step_push_closed (l : Limiter α) (v : GoValue α) (h : l.closed = true) :
    step l (.push v) = (l, .pushErrClosed) := by
  simp [step, Push, h]

theorem step_push_stored (l : Limiter α) (v : GoValue α) (hc : l.closed = false)
    (hl : l.buffer.length < l.capacity) :
    step l (.push v) = ({ l with buffer := l.buffer ++ [v] }, .stored v) := by
  simp [step, Push, hc, hl]

theorem step_push_full (l : Limiter α) (v : GoValue α) (hc : l.closed = false)
    (hl : ¬ l.buffer.length < l.capacity) :
    step l (.push v) = (l, .pushBlocked) := by
  simp [step, Push, hc, hl]

theorem step_pop_cons (l : Limiter α) (now : Int) (v : GoValue α)
    (rest : List (GoValue α)) (hb : l.buffer = v :: rest) :
    step l (.pop now)
      = ({ l with buffer := rest,
                  nextTime := now + max (l.nextTime - now) 0 + l.d },
         .popped v (now + max (l.nextTime - now) 0)) := by
  simp [step, PopOk, hb, waitAndBumpNextTime]

theorem step_pop_end (l : Limiter α) (now : Int) (hb : l.buffer = [])
    (hc : l.closed = true) :
    step l (.pop now) = (l, .popEnd) := by
  simp [step, PopOk, hb, hc]

theorem step_pop_blocked (l : Limiter α) (now : Int) (hb : l.buffer = [])
    (hc : l.closed = false) :
    step l (.pop now) = (l, .popBlocked) := by
  simp [step, PopOk, hb, hc]

theorem step_close_open (l : Limiter α) (hc : l.closed = false) :
    step l .close = ({ l with closed := true }, .closeOk) := by
  simp [step, Close, hc]

theorem step_close_closed (l : Limiter α) (hc : l.closed = true) :
    step l .close = (l, .closeErrClosed) := by
  simp [step, Close, hc]

/-- The throughput duration is fixed at construction and never mutated. -/
theorem step_d (l : Limiter α) (op : Op α) : ((step l op).1).d = l.d := by
  cases op with
  | push v =>
    by_cases hc : l.closed
    · rw [step_push_closed l v hc]
    · by_cases hl : l.buffer.length < l.capacity
      · rw [step_push_stored l v (by simpa using hc) hl]
      · rw [step_push_full l v (by simpa using hc) hl]
  | pop now =>
    match hb : l.buffer with
    | [] =>
      by_cases hc : l.closed
      · rw [step_pop_end l now hb hc]
      · rw [step_pop_blocked l now hb (by simpa using hc)]
    | v :: rest => rw [step_pop_cons l now v rest hb]
  | close =>
    by_cases hc : l.closed
    · rw [step_close_closed l hc]
    · rw [step_close_open l (by simpa using hc)]

/-- The buffer capacity is fixed at construction and never mutated. -/
theorem step_capacity (l : Limiter α) (op : Op α) :
    ((step l op).1).capacity = l.capacity := by
  cases op with
  | push v =>
    by_cases hc : l.closed
    · rw [step_push_closed l v hc]
    · by_cases hl : l.buffer.length < l.capacity
      · rw [step_push_stored l v (by simpa using hc) hl]
      · rw [step_push_full l v (by simpa using hc) hl]
  | pop now =>
    match hb : l.buffer with
    | [] =>
      by_cases hc : l.closed
      · rw [step_pop_end l now hb hc]
      · rw [step_pop_blocked l now hb (by simpa using hc)]
    | v :: rest => rw [step_pop_cons l now v rest hb]
  | close =>
    by_cases hc : l.closed
    · rw [step_close_closed l hc]
    · rw [step_close_open l (by simpa using hc)]

/-- The closed flag never reverts: once true, every step preserves it. -/
theorem step_closed (l : Limiter α) (op : Op α) (h : l.closed = true) :
    ((step l op).1).closed = true := by
  cases op with
  | push v => rw [step_push_closed l v h]; exact h
  | pop now =>
    match hb : l.buffer with
    | [] => rw [step_pop_end l now hb h]; exact h
    | v :: rest => rw [step_pop_cons l now v rest hb]; exact h
  | close => rw [step_close_closed l h]; exact h

/-! ### Trace-level lemmas -/

theorem run_append (l : Limiter α) (ops1 ops2 : List (Op α)) :
    run l (ops1 ++ ops2)
      = ((run (run l ops1).1 ops2).1,
         (run l ops1).2 ++ (run (run l ops1).1 ops2).2) := by
  induction ops1 generalizing l with
  | nil => simp [run]
  | cons op ops ih => simp [run, ih]

/-- The FIFO accounting identity: the values popped so far, followed by
what is still buffered, are exactly the initial buffer followed by the
values stored so far — in order, with no loss or duplication. -/
theorem poppedValues_append_buffer (l : Limiter α) (ops : List (Op α)) :
    poppedValues (run l ops).2 ++ ((run l ops).1).buffer
      = l.buffer ++ storedValues (run l ops).2 := by
  induction ops generalizing l with
  | nil => simp [run, poppedValues, storedValues]
  | cons op ops ih =>
    cases op with
    | push v =>
      by_cases hc : l.closed
      · simp [run, step_push_closed l v hc, poppedValues, storedValues, ih]
      · by_cases hl : l.buffer.length < l.capacity
        · simp [run, step_push_stored l v (by simpa using hc) hl,
            poppedValues, storedValues, ih]
        · simp [run, step_push_full l v (by simpa using hc) hl,
            poppedValues, storedValues, ih]
    | pop now =>
      match hb : l.buffer with
      | [] =>
        by_cases hc : l.closed
        · simp [run, step_pop_end l now hb hc, poppedValues, storedValues,
            ih, hb]
        · simp [run, step_pop_blocked l now hb (by simpa using hc),
            poppedValues, storedValues, ih, hb]
      | v :: rest =>
        simp [run, step_pop_cons l now v rest hb, poppedValues,
          storedValues, hb, ih]
    | close =>
      by_cases hc : l.closed
      · simp [run, step_close_closed l hc, poppedValues, storedValues, ih]
      · simp [run, step_close_open l (by simpa using hc), poppedValues,
          storedValues, ih]

/-- The first release instant of a trace is no earlier than the starting
watermark. -/
theorem popTimes_head_ge (l : Limiter α) (ops : List (Op α)) :
    ∀ t ∈ (popTimes (run l ops).2).head?, l.nextTime ≤ t := by
  induction ops generalizing l with
  | nil => simp [run, popTimes]
  | cons op ops ih =>
    cases op with
    | push v =>
      by_cases hc : l.closed
      · simpa [run, step_push_closed l v hc, popTimes] using ih l
      · by_cases hl : l.buffer.length < l.capacity
        · simpa [run, step_push_stored l v (by simpa using hc) hl, popTimes]
            using ih { l with buffer := l.buffer ++ [v] }
        · simpa [run, step_push_full l v (by simpa using hc) hl, popTimes]
            using ih l
    | pop now =>
      match hb : l.buffer with
      | [] =>
        by_cases hc : l.closed
        · simpa [run, step_pop_end l now hb hc, popTimes] using ih l
        · simpa [run, step_pop_blocked l now hb (by simpa using hc), popTimes]
            using ih l
      | v :: rest =>
        simp [run, step_pop_cons l now v rest hb, popTimes]
        omega
    | close =>
      by_cases hc : l.closed
      · simpa [run, step_close_closed l hc, popTimes] using ih l
      · simpa [run, step_close_open l (by simpa using hc), popTimes]
          using ih { l with closed := true }

/-- Consecutive release instants in any trace are at least `l.d` apart:
each release bumps the watermark to its own instant plus `l.d`, and by
`popTimes_head_ge` the next release cannot beat the watermark. -/
theorem popTimes_chain (l : Limiter α) (ops : List (Op α)) :
    List.Chain' (fun t1 t2 => l.d ≤ t2 - t1) (popTimes (run l ops).2) := by
  induction ops generalizing l with
  | nil => simp [run, popTimes]
  | cons op ops ih =>
    cases op with
    | push v =>
      by_cases hc : l.closed
      · simpa [run, step_push_closed l v hc, popTimes] using ih l
      · by_cases hl : l.buffer.length < l.capacity
        · simpa [run, step_push_stored l v (by simpa using hc) hl, popTimes]
            using ih { l with buffer := l.buffer ++ [v] }
        · simpa [run, step_push_full l v (by simpa using hc) hl, popTimes]
            using ih l
    | pop now =>
      match hb : l.buffer with
      | [] =>
        by_cases hc : l.closed
        · simpa [run, step_pop_end l now hb hc, popTimes] using ih l
        · simpa [run, step_pop_blocked l now hb (by simpa using hc), popTimes]
            using ih l
      | v :: rest =>
        simp only [run, step_pop_cons l now v rest hb, popTimes]
        rw [List.chain'_cons']
        refine ⟨fun y hy => ?_, ih _⟩
        have := popTimes_head_ge
          { l with buffer := rest,
                   nextTime := now + max (l.nextTime - now) 0 + l.d } ops y hy
        simp only at this
        omega
    | close =>
      by_cases hc : l.closed
      · simpa [run, step_close_closed l hc, popTimes] using ih l
      · simpa [run, step_close_open l (by simpa using hc), popTimes]
          using ih { l with closed := true }

/-- Every step keeps the buffer within capacity. -/
theorem step_buffer_le (l : Limiter α) (op : Op α)
    (h : l.buffer.length ≤ l.capacity) :
    ((step l op).1).buffer.length ≤ l.capacity := by
  cases op with
  | push v =>
    by_cases hc : l.closed
    · rw [step_push_closed l v hc]; exact h
    · by_cases hl : l.buffer.length < l.capacity
      · rw [step_push_stored l v (by simpa using hc) hl]; simp; omega
      · rw [step_push_full l v (by simpa using hc) hl]; exact h
  | pop now =>
    match hb : l.buffer with
    | [] =>
      by_cases hc : l.closed
      · rw [step_pop_end l now hb hc]; exact h
      · rw [step_pop_blocked l now hb (by simpa using hc)]; exact h
    | v :: rest =>
      rw [step_pop_cons l now v rest hb]
      simp only
      rw [hb] at h
      simp at h ⊢
      omega
  | close =>
    by_cases hc : l.closed
    · rw [step_close_closed l hc]; exact h
    · rw [step_close_open l (by simpa using hc)]; exact h

/-- Along any trace the buffer never exceeds the starting capacity. -/
theorem run_buffer_le (l : Limiter α) (ops : List (Op α))
    (h : l.buffer.length ≤ l.capacity) :
    ((run l ops).1).buffer.length ≤ l.capacity := by
  induction ops generalizing l with
  | nil => simpa [run] using h
  | cons op ops ih =>
    have hcap := step_capacity l op
    have hstep := step_buffer_le l op h
    have := ih (step l op).1 (by rw [hcap]; exact hstep)
    simpa [run, hcap] using this

/-- The closed flag never reverts along any trace. -/
theorem run_closed (l : Limiter α) (ops : List (Op α)) (h : l.closed = true) :
    (((run l ops).1)).closed = true := by
  induction ops generalizing l with
  | nil => simpa [run] using h
  | cons op ops ih => simpa [run] using ih (step l op).1 (step_closed l op h)

/-- Pushing a list of values into an open limiter with enough room
stores them all, in order, at the tail of the buffer. -/
theorem run_pushAll (l : Limiter α) (vs : List (GoValue α))
    (hc : l.closed = false) (hlen : l.buffer.length + vs.length ≤ l.capacity) :
    run l (vs.map .push) = ({ l with buffer := l.buffer ++ vs }, vs.map .stored) := by
  induction vs generalizing l with
  | nil => simp [run]
  | cons v vs ih =>
    have hl : l.buffer.length < l.capacity := by simp at hlen; omega
    have hrec := ih { l with buffer := l.buffer ++ [v] }
      (by simpa using hc) (by simp at hlen ⊢; omega)
    simp [run, step_push_stored l v hc hl, hrec]

/-- Draining a closed limiter: each call returns the next buffered value
with `true`, and once the buffer is empty every further call returns
`(nil, false)`. -/
theorem popRun_closed (l : Limiter α) (hc : l.closed = true) (ns : List Int) :
    popRun l ns
      = (l.buffer.take ns.length).map (fun v => (v, true))
        ++ List.replicate (ns.length - l.buffer.length)
            ((none : GoValue α), false) := by
  induction ns generalizing l with
  | nil => simp [popRun]
  | cons now rest ih =>
    match hb : l.buffer with
    | [] =>
      have := ih l
      simp [popRun, PopOk, hb, hc, List.replicate_succ] at this ⊢
      simpa [hb] using this
    | v :: bs =>
      have hrec := ih { l with buffer := bs, nextTime := (waitAndBumpNextTime l.nextTime l.d now).2 }
        (by simpa using hc)
      simp [popRun, PopOk, hb, hrec, Nat.succ_sub_succ]

/-- A step never lowers the watermark when the duration is non-negative. -/
theorem step_nextTime_le (l : Limiter α) (op : Op α) (hd : 0 ≤ l.d) :
    l.nextTime ≤ ((step l op).1).nextTime := by
  cases op with
  | push v =>
    by_cases hc : l.closed
    · rw [step_push_closed l v hc]
    · by_cases hl : l.buffer.length < l.capacity
      · rw [step_push_stored l v (by simpa using hc) hl]
      · rw [step_push_full l v (by simpa using hc) hl]
  | pop now =>
    match hb : l.buffer with
    | [] =>
      by_cases hc : l.closed
      · rw [step_pop_end l now hb hc]
      · rw [step_pop_blocked l now hb (by simpa using hc)]
    | v :: rest =>
      rw [step_pop_cons l now v rest hb]
      simp only
      omega
  | close =>
    by_cases hc : l.closed
    · rw [step_close_closed l hc]
    · rw [step_close_open l (by simpa using hc)]

/-! ### The specification claims -/

/-- C1.  Strict FIFO order: starting from a freshly constructed limiter
and running any serialized trace with no close, the values stored by the
successful pushes, in order, are exactly the values returned by the
successful pops, in order, followed by what is still buffered — so the
pops return `v0..vN-1` with no reordering, duplication, or loss. -/
theorem fifo_order (α : Type) (t0 d c : Int) (l0 : Limiter α)
    (h0 : NewCapacity α t0 d c = some l0)
    (ops : List (Op α)) (hnc : Op.close ∉ ops) :
    storedValues (run l0 ops).2
      = poppedValues (run l0 ops).2 ++ ((run l0 ops).1).buffer := by
  have hb : l0.buffer = [] := by
    unfold NewCapacity at h0
    split at h0
    · exact absurd h0 (by simp)
    · cases h0; rfl
  have h := poppedValues_append_buffer l0 ops
  rw [hb] at h
  simpa using h.symm

theorem fifo_order_instance :
    storedValues (run (⟨0, 3, 2, [], false⟩ : Limiter Nat)
        [.push (some 1), .push (some 2), .pop 0, .pop 4]).2
      = poppedValues (run (⟨0, 3, 2, [], false⟩ : Limiter Nat)
          [.push (some 1), .push (some 2), .pop 0, .pop 4]).2
        ++ ((run (⟨0, 3, 2, [], false⟩ : Limiter Nat)
          [.push (some 1), .push (some 2), .pop 0, .pop 4]).1).buffer :=
  fifo_order Nat 0 3 2 ⟨0, 3, 2, [], false⟩ (by decide)
    [.push (some 1), .push (some 2), .pop 0, .pop 4] (by decide)

/-- C2.  Pacing lower bound: along any serialized trace (consumers all
pass through the same mutex-guarded gate, so their releases appear in
series), any two consecutive release instants `t1 < t2` of successful
pops satisfy `t2 - t1 ≥ d`, the configured interval. -/
theorem pacing_lower_bound (α : Type) (l : Limiter α) (ops : List (Op α)) :
    List.Chain' (fun t1 t2 => l.d ≤ t2 - t1) (popTimes (run l ops).2) :=
  popTimes_chain l ops

/-- The pacing gate exactly as the spec words it: wait until
`now ≥ nextReleaseTime` (waiting zero time if that instant has passed),
then set `nextReleaseTime = now + interval`.  Returns
`(release instant, new watermark)`.  Compared against
`waitAndBumpNextTime`, which is translated from the source. -/
def gateFromSpec (nextTime d now : Int) : Int × Int :=
  (max now nextTime, max now nextTime + d)

/-- C3.  Pacing gate algorithm: the gate of the source equals the
wait-until-watermark-then-bump gate worded by the spec, and every successful dequeue first
removes the head from the buffer, then runs the gate (updating the
watermark under the lock), and only then returns the value at the
release instant of the gate. -/
theorem pacing_gate_algorithm (α : Type) :
    (∀ nextTime d now : Int,
        waitAndBumpNextTime nextTime d now = gateFromSpec nextTime d now) ∧
    (∀ (l : Limiter α) (now : Int) (v : GoValue α) (rest : List (GoValue α)),
        l.buffer = v :: rest →
        PopOk l now
          = some ((v, true),
              { l with buffer := rest,
                       nextTime := (gateFromSpec l.nextTime l.d now).2 },
              (gateFromSpec l.nextTime l.d now).1)) := by
  constructor
  · intro nextTime d now
    simp only [waitAndBumpNextTime, gateFromSpec, Prod.mk.injEq]
    omega
  · intro l now v rest hb
    simp only [PopOk, hb, waitAndBumpNextTime, gateFromSpec,
      Option.some.injEq, Prod.mk.injEq, Limiter.mk.injEq, and_true, true_and]
    omega

theorem pacing_gate_algorithm_instance :
    PopOk (⟨5, 3, 1, [some 7], false⟩ : Limiter Nat) 2
      = some ((some 7, true), ⟨8, 3, 1, [], false⟩, 5) := by
  have h := (pacing_gate_algorithm Nat).2 ⟨5, 3, 1, [some 7], false⟩ 2
    (some 7) [] rfl
  simpa [gateFromSpec] using h

/-- C5.  Closed rejects push atomically: a push to a closed limiter
returns `ErrClosed` with the limiter — buffer contents and occupancy —
unchanged; in particular this holds for any push issued right after a
successful close. -/
theorem closed_rejects_push (α : Type) :
    (∀ (l : Limiter α) (v : GoValue α), l.closed = true →
        Push l v = .errClosed l) ∧
    (∀ (l : Limiter α) (v : GoValue α), l.closed = false →
        Push ((Close l).2) v = .errClosed ((Close l).2)) := by
  constructor
  · intro l v h
    simp [Push, h]
  · intro l v h
    simp [Push, Close, h]

theorem closed_rejects_push_instance :
    Push ((Close (⟨0, 1, 1, [], false⟩ : Limiter Nat)).2) (some 3)
      = .errClosed ((Close (⟨0, 1, 1, [], false⟩ : Limiter Nat)).2) :=
  (closed_rejects_push Nat).2 ⟨0, 1, 1, [], false⟩ (some 3) rfl

/-- C6.  Close is one-shot: closing an open limiter succeeds and sets
the closed flag; closing a closed limiter returns `ErrClosed` and
changes nothing; and once closed, no step and no trace of further
operations ever reverts the flag. -/
theorem close_one_shot (α : Type) :
    (∀ l : Limiter α, l.closed = false →
        Close l = (.ok (), { l with closed := true })) ∧
    (∀ l : Limiter α, l.closed = true →
        Close l = (.error .ErrClosed, l)) ∧
    (∀ (l : Limiter α) (op : Op α), l.closed = true →
        ((step l op).1).closed = true) ∧
    (∀ (l : Limiter α) (ops : List (Op α)), l.closed = true →
        (((run l ops).1)).closed = true) := by
  refine ⟨fun l h => ?_, fun l h => ?_, step_closed, run_closed⟩
  · simp [Close, h]
  · simp [Close, h]

theorem close_one_shot_instance :
    Close (⟨0, 1, 1, [], false⟩ : Limiter Nat)
      = (.ok (), ⟨0, 1, 1, [], true⟩) ∧
    Close (⟨0, 1, 1, [], true⟩ : Limiter Nat)
      = (.error .ErrClosed, ⟨0, 1, 1, [], true⟩) ∧
    (((run (⟨0, 1, 1, [], true⟩ : Limiter Nat)
        [.push (some 2), .pop 0, .close]).1)).closed = true :=
  ⟨(close_one_shot Nat).1 ⟨0, 1, 1, [], false⟩ rfl,
   (close_one_shot Nat).2.1 ⟨0, 1, 1, [], true⟩ rfl,
   (close_one_shot Nat).2.2.2 ⟨0, 1, 1, [], true⟩
     [.push (some 2), .pop 0, .close] rfl⟩

/-- C4.  Close drains then signals end, and pops never error: pushing
`v0..vN-1` into a fresh limiter with room and then closing stores all of
them and succeeds; from that closed state, successive `PopOk` calls
return `(vi, true)` for `i = 0..N-1` in order and every further call
returns `(nil, false)` — by its type `PopOk` has no error outcome, and
on a closed empty limiter it returns at the very instant it was called
with the state unchanged. -/
theorem close_drains_then_signals_end (α : Type) (t0 d c : Int)
    (l0 : Limiter α) (h0 : NewCapacity α t0 d c = some l0)
    (vs : List (GoValue α)) (hlen : vs.length ≤ l0.capacity)
    (ns : List Int) :
    run l0 (vs.map .push ++ [.close])
      = ({ l0 with buffer := vs, closed := true },
         vs.map .stored ++ [.closeOk]) ∧
    popRun { l0 with buffer := vs, closed := true } ns
      = (vs.take ns.length).map (fun v => (v, true))
        ++ List.replicate (ns.length - vs.length)
            ((none : GoValue α), false) := by
  have hb : l0.buffer = [] := by
    unfold NewCapacity at h0
    split at h0
    · exact absurd h0 (by simp)
    · cases h0; rfl
  have hc : l0.closed = false := by
    unfold NewCapacity at h0
    split at h0
    · exact absurd h0 (by simp)
    · cases h0; rfl
  constructor
  · have hpush := run_pushAll l0 vs hc (by rw [hb]; simpa using hlen)
    rw [run_append, hpush]
    have hstep := step_close_open { l0 with buffer := vs }
      (by simpa using hc)
    simp [run, hb, hstep]
  · have h := popRun_closed { l0 with buffer := vs, closed := true } rfl ns
    simpa using h

theorem close_drains_then_signals_end_instance :
    run (⟨0, 1, 2, [], false⟩ : Limiter Nat)
        ([some 4, some 5].map .push ++ [.close])
      = (⟨0, 1, 2, [some 4, some 5], true⟩,
         [some 4, some 5].map .stored ++ [.closeOk]) ∧
    popRun (⟨0, 1, 2, [some 4, some 5], true⟩ : Limiter Nat) [0, 0, 9]
      = ([some 4, some 5].take 3).map (fun v => (v, true))
        ++ List.replicate (3 - 2) ((none : GoValue Nat), false) :=
  close_drains_then_signals_end Nat 0 1 2 ⟨0, 1, 2, [], false⟩ (by decide)
    [some 4, some 5] (by decide) [0, 0, 9]

/-- C7.  Capacity invariant and backpressure: from a freshly constructed
limiter, after any trace the buffer never holds more than the
construction capacity; and a push to an open limiter whose buffer is at
capacity blocks — it does not complete, and completes only once a pop
frees a slot or a close makes it fail. -/
theorem capacity_invariant_backpressure (α : Type) (t0 d c : Int)
    (l0 : Limiter α) (h0 : NewCapacity α t0 d c = some l0)
    (ops : List (Op α)) :
    ((run l0 ops).1).buffer.length ≤ l0.capacity ∧
    (∀ (l : Limiter α) (v : GoValue α), l.closed = false →
        l.buffer.length = l.capacity → Push l v = .blocked) := by
  constructor
  · have hb : l0.buffer = [] := by
      unfold NewCapacity at h0
      split at h0
      · exact absurd h0 (by simp)
      · cases h0; rfl
    exact run_buffer_le l0 ops (by simp [hb])
  · intro l v hc hl
    simp [Push, hc, hl]

theorem capacity_invariant_backpressure_instance :
    ((run (⟨0, 1, 2, [], false⟩ : Limiter Nat)
        [.push (some 1), .push (some 2), .push (some 3), .pop 0]).1).buffer.length
      ≤ 2 ∧
    Push (⟨0, 1, 2, [some 1, some 2], false⟩ : Limiter Nat) (some 3)
      = .blocked :=
  ⟨(capacity_invariant_backpressure Nat 0 1 2 ⟨0, 1, 2, [], false⟩ (by decide)
      [.push (some 1), .push (some 2), .push (some 3), .pop 0]).1,
   (capacity_invariant_backpressure Nat 0 1 2 ⟨0, 1, 2, [], false⟩ (by decide)
      []).2 ⟨0, 1, 2, [some 1, some 2], false⟩ (some 3) rfl rfl⟩

/-- C8, counterexample.  The claim fails as stated: nothing stops
construction with a negative duration (Go `time.Duration` may be
negative and `NewCapacity` does not validate it), and then a release
sets `nextTime = now + d` **below** its previous value.  Concretely: a
limiter built at instant 10 with `d = -1`, after one push, has
watermark 10; popping at instant 10 drops the watermark to 9. -/
theorem watermark_decrease_cex :
    NewCapacity Nat 10 (-1) 1 = some ⟨10, -1, 1, [], false⟩ ∧
    ((run (⟨10, -1, 1, [], false⟩ : Limiter Nat) [.push (some 0)]).1).nextTime
      = 10 ∧
    ((run (⟨10, -1, 1, [], false⟩ : Limiter Nat)
        [.push (some 0), .pop 10]).1).nextTime = 9 ∧
    ¬ ((10 : Int) ≤ 9) := by
  decide

/-- C8, amended.  Watermark monotonicity holds for every limiter whose
duration is non-negative: along any trace, `nextTime` never decreases —
each release rewrites it to the release instant (which the gate forces
to be at least the old watermark) plus `d`. -/
theorem watermark_monotone (α : Type) (l : Limiter α) (hd : 0 ≤ l.d)
    (ops : List (Op α)) :
    l.nextTime ≤ ((run l ops).1).nextTime := by
  induction ops generalizing l with
  | nil => simp [run]
  | cons op ops ih =>
    have h1 := step_nextTime_le l op hd
    have h2 := ih (step l op).1 (by rw [step_d]; exact hd)
    calc l.nextTime ≤ ((step l op).1).nextTime := h1
      _ ≤ _ := by simpa [run] using h2

theorem watermark_monotone_instance :
    (⟨0, 5, 1, [some 2], false⟩ : Limiter Nat).nextTime
      ≤ ((run (⟨0, 5, 1, [some 2], false⟩ : Limiter Nat)
          [.pop 3, .push (some 4), .pop 3]).1).nextTime :=
  watermark_monotone Nat ⟨0, 5, 1, [some 2], false⟩ (by decide)
    [.pop 3, .push (some 4), .pop 3]

/-- C9.  `Pop` is the value projection of `PopOk`: it returns exactly
the first component and discards the validity flag.  Consequently a
pushed `nil` (here `none`) is returned by `Pop` as the very same value
that `Pop` returns after close-and-drain — the two are
indistinguishable. -/
theorem pop_value_projection (α : Type) :
    (∀ (l : Limiter α) (now : Int),
        Pop l now = (PopOk l now).map fun r => (r.1.1, r.2)) ∧
    (Pop (⟨0, 1, 1, [none], false⟩ : Limiter Nat) 0
        = some (none, ⟨1, 1, 1, [], false⟩, 0) ∧
     Pop (⟨0, 1, 1, [], true⟩ : Limiter Nat) 0
        = some (none, ⟨0, 1, 1, [], true⟩, 0)) := by
  refine ⟨fun l now => ?_, by decide, by decide⟩
  rcases h : PopOk l now with _ | ⟨⟨v, ok⟩, l1, t⟩ <;> simp [Pop, h]

/-- C10.  Construction performs no capacity validation: capacity 0 is
accepted and yields a limiter with no buffer space, on which every push
to the open limiter blocks (it can only complete by handing the value
to a concurrently executing pop, which the buffered-channel model has
no room for); a negative capacity makes construction fault (Go `make`
panics), so "no failure conditions" holds exactly for the unchecked
precondition `capacity ≥ 0` — and usable buffering only for
`capacity ≥ 1`. -/
theorem construction_unchecked (α : Type) :
    (∀ now d : Int, NewCapacity α now d 0
        = some { nextTime := now, d := d, capacity := 0,
                 buffer := [], closed := false }) ∧
    (∀ (l : Limiter α) (v : GoValue α), l.closed = false →
        l.capacity = 0 → Push l v = .blocked) ∧
    (∀ now d c : Int, c < 0 → NewCapacity α now d c = none) ∧
    (∀ now d c : Int, 0 ≤ c → ∃ l : Limiter α, NewCapacity α now d c = some l) := by
  refine ⟨fun now d => ?_, fun l v hc hcap => ?_, fun now d c hneg => ?_,
    fun now d c hpos => ?_⟩
  · simp [NewCapacity]
  · simp [Push, hc, hcap]
  · simp [NewCapacity, hneg]
  · refine ⟨⟨now, d, c.toNat, [], false⟩, ?_⟩
    rw [NewCapacity, if_neg (by omega)]

theorem construction_unchecked_instance :
    NewCapacity Nat 0 7 0 = some ⟨0, 7, 0, [], false⟩ ∧
    Push (⟨0, 7, 0, [], false⟩ : Limiter Nat) (some 1) = .blocked ∧
    NewCapacity Nat 0 7 (-2) = none :=
  ⟨(construction_unchecked Nat).1 0 7,
   (construction_unchecked Nat).2.1 ⟨0, 7, 0, [], false⟩ (some 1) rfl rfl,
   (construction_unchecked Nat).2.2.1 0 7 (-2) (by decide)⟩

end Ratelimit
